import Mathlib

/-!
Verification of the version-resolution and listing engine of an S3 gateway
over an append-only object store.

The definitions below are a shallow embedding of the Go source:

* `ObjectInfo` models `data.ObjectInfo` restricted to the fields the engine
  reads: logical key name, backend-assigned version id (both `Version()` and
  `ID.String()` return this string), creation epoch, the four version-control
  headers (a missing map key reads as `""`, as for a Go map), and the
  directory flag used by listing.
* `objectVersions`, `appendVersion`, `less`, `getLast`, `getFiltered`,
  `getAddHeader`, `getDelHeader` embed the VersionSet type of
  `tree_service.go`; `updateCRDT2PSetHeaders` embeds the write-time header
  merge; `ListObjectsV1`, `ListObjectsV2` and `listObjectVersionsCore` embed
  the listing pipelines.  Go's `sort.Slice` is embedded as an insertion sort
  over the source's `less`; Go loops over slices become structural recursion;
  a Go slice/index access that can be out of range is modelled by returning
  `Option` results, `none` standing for the runtime fault.
* A handful of small methods (`getExistedVersions`, `unversioned`, `isEmpty`,
  `isAddListEmpty`) are called by the sources but their bodies are not among
  the provided files; each is defined below from the spec's words and carries
  a doc comment starting with `Modelled from the spec:`.
-/

/-- One physical, immutable backend object seen as one version of a logical
key.  `version` is the backend-assigned id string (the source's
`oi.Version()` and `oi.ID.String()`); the four header fields are the values
of the version-control attributes in `oi.Headers`, `""` when absent. -/
structure ObjectInfo where
  name : String
  version : String
  creationEpoch : Nat
  addHeader : String
  delHeader : String
  delMarkHeader : String
  unversionedHeader : String
  isDir : Bool
deriving DecidableEq, Repr

/-- The full-object delete-mark sentinel `delMarkFullObject = "*"`. -/
def delMarkFullObject : String := "*"

/-- Lexicographic strict comparison of character lists, the order Go's `<`
on strings realises (UTF-8 byte order coincides with code-point order). -/
def listCharLt : List Char → List Char → Bool
  | [], [] => false
  | [], _ :: _ => true
  | _ :: _, [] => false
  | a :: as, b :: bs =>
    if a < b then true else if b < a then false else listCharLt as bs

/-- Go's `s < t` on strings. -/
def strLt (s t : String) : Bool := listCharLt s.data t.data

/-- Go's `s <= t` on strings. -/
def strLe (s t : String) : Bool := !(strLt t s)

/-- The VersionSet: `objectVersions` from `tree_service.go`. -/
structure objectVersions where
  name : String
  objects : List ObjectInfo
  addList : List String
  delList : List String
  isSorted : Bool
deriving DecidableEq, Repr

/-- `newObjectVersions` from `tree_service.go`. -/
def newObjectVersions (name : String) : objectVersions :=
  { name := name, objects := [], addList := [], delList := [], isSorted := false }

/-- `contains` from `tree_service.go`: linear scan for a string. -/
def contains : List String → String → Bool
  | [], _ => false
  | item :: rest, elem => if elem = item then true else contains rest elem

/-- Comma splitting on the character list of a string, accumulating the
current field in reverse. -/
def splitCommaAux : List Char → List Char → List String
  | [], acc => [String.mk acc.reverse]
  | c :: cs, acc =>
    if c = ',' then String.mk acc.reverse :: splitCommaAux cs []
    else splitCommaAux cs (c :: acc)

/-- Go's `strings.Split(s, ",")`. -/
def splitComma (s : String) : List String := splitCommaAux s.data []

/-- `splitVersions`: empty header gives no ids, otherwise split on commas. -/
def splitVersions (header : String) : List String :=
  if header = "" then [] else splitComma header

/-- Go's `strings.Join(list, ",")`, and also the comma-accumulation loop of
`updateCRDT2PSetHeaders`. -/
def joinComma : List String → String
  | [] => ""
  | [x] => x
  | x :: y :: xs => x ++ "," ++ joinComma (y :: xs)

/-- One step of the keep-first-occurrence accumulation loops of
`appendVersion` (`if !contains(list, x) { list = append(list, x) }`). -/
def addUnique (list : List String) (x : String) : List String :=
  if contains list x then list else list ++ [x]

/-- `appendVersion` from `tree_service.go`: fold one discovered physical
version into the VersionSet. -/
def appendVersion (v : objectVersions) (oi : ObjectInfo) : objectVersions :=
  let addVers := splitVersions oi.addHeader ++ [oi.version]
  let delVers := splitVersions oi.delHeader
  { v with
    objects := v.objects ++ [oi]
    addList := addVers.foldl addUnique v.addList
    delList := delVers.foldl addUnique v.delList
    isSorted := false }

/-- Folding a whole list of discovered versions into a VersionSet, in order
(the loops of `headVersions` / `getAllObjectsVersions`). -/
def foldVersions (v : objectVersions) (objs : List ObjectInfo) : objectVersions :=
  objs.foldl appendVersion v

/-- `less` from `tree_service.go`: creation epoch ascending, version id as
tie-break. -/
def less (ov1 ov2 : ObjectInfo) : Bool :=
  if ov1.creationEpoch = ov2.creationEpoch then strLt ov1.version ov2.version
  else decide (ov1.creationEpoch < ov2.creationEpoch)

/-- Sorted insertion w.r.t. `less`; the building block of the embedding of
`sort.Slice(v.objects, less)`. -/
def insertSorted (x : ObjectInfo) : List ObjectInfo → List ObjectInfo
  | [] => [x]
  | y :: ys => if less x y then x :: y :: ys else y :: insertSorted x ys

/-- The embedding of `objectVersions.sort` (Go `sort.Slice` with `less`):
an insertion sort.  Go's sort is unspecified on ties; this picks one
deterministic realisation of it. -/
def sortObjects (l : List ObjectInfo) : List ObjectInfo :=
  l.foldl (fun acc x => insertSorted x acc) []

/-- Modelled from the spec: the body of `getExistedVersions` is not among the
provided sources (only its call sites in `getLast`, `getFiltered` and
`checkVersionsExist` are).  The spec's existing-versions computation is
`existing = union(all add-lists seen) − union(all del-lists seen)`, which on
the accumulated `addList`/`delList` of a VersionSet is the add-list filtered
by non-membership in the del-list. -/
def getExistedVersions (v : objectVersions) : List String :=
  v.addList.filter (fun a => !(contains v.delList a))

/-- The newest-to-oldest scan loop of `getLast` (`for i := len-1; i >= 0; i--`),
taken over the already-reversed sorted list. -/
def scanLast (existedVersions : List String) : List ObjectInfo → Option ObjectInfo
  | [] => none
  | o :: rest =>
    if contains existedVersions o.version then
      if o.delMarkHeader = "" then some o
      else if o.delMarkHeader = delMarkFullObject then none
      else scanLast existedVersions rest
    else scanLast existedVersions rest

/-- `getLast` from `tree_service.go`: current-version resolution. -/
def getLast (v : objectVersions) : Option ObjectInfo :=
  if v.objects = [] then none
  else scanLast (getExistedVersions v) (sortObjects v.objects).reverse

/-- `getFiltered` from `tree_service.go`: the eligible history of a key. -/
def getFiltered (v : objectVersions) : List ObjectInfo :=
  if v.objects = [] then []
  else
    let existedVersions := getExistedVersions v
    (sortObjects v.objects).filter
      (fun o => contains existedVersions o.version &&
        (o.delMarkHeader == delMarkFullObject || o.delMarkHeader == ""))

/-- Current-version resolution exactly as the spec's sentence words it (for
comparison with `getLast`): "scan the totally-ordered version list from
newest to oldest; skip any version whose id is not in existing; the first
eligible version found is the answer, unless that version carries a
delete-mark header equal to the full-object sentinel, in which case
resolution returns not found". -/
def specGetLast (v : objectVersions) : Option ObjectInfo :=
  let existedVersions := getExistedVersions v
  match (sortObjects v.objects).reverse.find? (fun o => contains existedVersions o.version) with
  | none => none
  | some o => if o.delMarkHeader = delMarkFullObject then none else some o

/-- `getAddHeader` from `tree_service.go`. -/
def getAddHeader (v : objectVersions) : String := joinComma v.addList

/-- `getDelHeader` from `tree_service.go`. -/
def getDelHeader (v : objectVersions) : String := joinComma v.delList

/-- Modelled from the spec: the body of `objectVersions.isEmpty` is not among
the provided sources (only its call in `updateCRDT2PSetHeaders`).  A
VersionSet is empty when it holds no discovered versions. -/
def isEmpty (v : objectVersions) : Bool := v.objects.isEmpty

/-- Modelled from the spec: the body of `objectVersions.isAddListEmpty` is not
among the provided sources (only its call in `updateCRDT2PSetHeaders`). -/
def isAddListEmpty (v : objectVersions) : Bool := v.addList.isEmpty

/-- Modelled from the spec: the body of `objectVersions.unversioned` is not
among the provided sources (only its call in `updateCRDT2PSetHeaders`).  The
spec's merge rule for disabled versioning reads "ids of every prior version
marked unversioned", so it selects the versions whose unversioned flag
header is set. -/
def unversioned (v : objectVersions) : List ObjectInfo :=
  v.objects.filter (fun o => o.unversionedHeader == "true")

/-- The version-control entries of the header map handed to
`updateCRDT2PSetHeaders` (a Go `map[string]string`; keys the function never
touches are dropped from the model, a missing key reads as `""`). -/
structure PutHeader where
  unversionedAttr : String
  addAttr : String
  delAttr : String
deriving DecidableEq, Repr

/-- `updateCRDT2PSetHeaders`: the write-time version-control header merge.
Returns the updated header map together with `idsToDeleteArr`, the prior
unversioned physical ids that become candidates for best-effort deletion.
Go's `len(s) != 0` tests are written `s ≠ ""`. -/
def updateCRDT2PSetHeaders (header : PutHeader) (versions : objectVersions)
    (versioningEnabled : Bool) : PutHeader × List String :=
  let header :=
    if !versioningEnabled then { header with unversionedAttr := "true" } else header
  if isEmpty versions then (header, [])
  else
    let header :=
      if !isAddListEmpty versions then { header with addAttr := getAddHeader versions }
      else header
    if versioningEnabled then
      let versionsDeletedStr := getDelHeader versions
      let header :=
        if header.delAttr ≠ "" then
          if versionsDeletedStr ≠ "" then
            { header with delAttr := versionsDeletedStr ++ "," ++ header.delAttr }
          else header
        else if versionsDeletedStr ≠ "" then
          { header with delAttr := versionsDeletedStr }
        else header
      (header, [])
    else
      let versionsDeletedStr := getDelHeader versions
      let idsToDeleteArr := (unversioned versions).map (fun o => o.version)
      let additionalDel := joinComma idsToDeleteArr
      let versionsDeletedStr :=
        if additionalDel ≠ "" then
          (if versionsDeletedStr ≠ "" then versionsDeletedStr ++ "," else versionsDeletedStr)
            ++ additionalDel
        else versionsDeletedStr
      let header :=
        if versionsDeletedStr ≠ "" then { header with delAttr := versionsDeletedStr }
        else header
      (header, idsToDeleteArr)

/-- `triageObjects`: split a listing slice into directory entries (common
prefixes) and leaf objects, preserving order. -/
def triageObjects (allObjects : List ObjectInfo) : List String × List ObjectInfo :=
  ((allObjects.filter (fun o => o.isDir)).map (fun o => o.name),
   allObjects.filter (fun o => !o.isDir))

/-- The scan loop of `trimAfterObjectName`: return the suffix starting at the
first object whose name is strictly greater, or nothing. -/
def dropUntilNameGt (startAfter : String) : List ObjectInfo → List ObjectInfo
  | [] => []
  | o :: rest => if strLt startAfter o.name then o :: rest else dropUntilNameGt startAfter rest

/-- `trimAfterObjectName`: V1 marker / V2 start-after cursor application. -/
def trimAfterObjectName (startAfter : String) (objects : List ObjectInfo) : List ObjectInfo :=
  if objects.getLast?.any (fun o => strLe o.name startAfter) then []
  else dropUntilNameGt startAfter objects

/-- The scan loop of `trimAfterObjectID`: return the suffix just after the
first object whose id matches, or nothing. -/
def dropThroughID (id : String) : List ObjectInfo → List ObjectInfo
  | [] => []
  | o :: rest => if o.version = id then rest else dropThroughID id rest

/-- `trimAfterObjectID`: V2 continuation-token cursor application. -/
def trimAfterObjectID (id : String) (objects : List ObjectInfo) : List ObjectInfo :=
  if objects.getLast?.any (fun o => o.version == id) then []
  else dropThroughID id objects

/-- The marker loop of `ListObjectVersions` (`for i, obj … if cond { allObjects
= allObjects[i:]; break }`): `some` of the suffix from the first qualifying
element, `none` when the loop falls through without a break. -/
def lovTrimGo (keyMarker versionIDMarker : String) :
    List ObjectInfo → Option (List ObjectInfo)
  | [] => none
  | o :: rest =>
    if strLe keyMarker o.name && strLe versionIDMarker o.version then some (o :: rest)
    else lovTrimGo keyMarker versionIDMarker rest

/-- Marker application of `ListObjectVersions`: when no element qualifies the
loop leaves the slice unchanged. -/
def lovMarkerTrim (keyMarker versionIDMarker : String) (allObjects : List ObjectInfo) :
    List ObjectInfo :=
  (lovTrimGo keyMarker versionIDMarker allObjects).getD allObjects

/-- An entry of the version-listing answer (`ObjectVersionInfo`). -/
structure ObjectVersionInfo where
  object : ObjectInfo
  isLatest : Bool
deriving DecidableEq, Repr

/-- The `IsLatest` flagging loop of `ListObjectVersions` (lines 306-312):
an entry is flagged when it is the last one or the next entry has another
name. -/
def markLatest : List ObjectInfo → List ObjectVersionInfo
  | [] => []
  | [o] => [{ object := o, isLatest := true }]
  | o :: o2 :: rest =>
    { object := o, isLatest := decide (o2.name ≠ o.name) } :: markLatest (o2 :: rest)

/-- `triageVersions`: split flagged entries into live versions and full-object
delete markers. -/
def triageVersions (objVersions : List ObjectVersionInfo) :
    List ObjectVersionInfo × List ObjectVersionInfo :=
  (objVersions.filter (fun ov => !(ov.object.delMarkHeader == delMarkFullObject)),
   objVersions.filter (fun ov => ov.object.delMarkHeader == delMarkFullObject))

/-- The version-listing answer (`ListObjectVersionsInfo`), restricted to the
fields the engine writes. -/
structure ListObjectVersionsInfo where
  isTruncated : Bool
  keyMarker : String
  nextKeyMarker : String
  versionIDMarker : String
  nextVersionIDMarker : String
  commonPrefixes : List String
  version : List ObjectVersionInfo
  deleteMarker : List ObjectVersionInfo
deriving DecidableEq, Repr

/-- The pipeline of `ListObjectVersions` after the object universe is known
(lines 287-315): marker application, triage, truncation, latest-flagging and
version/delete-marker triage.  `maxKeys` is a Go `int`; the result is `none`
when the Go code would fault on an out-of-range slice or index access
(`allObjects[p.MaxKeys]`, `allObjects[:p.MaxKeys]`,
`allObjects[p.MaxKeys-1]`). -/
def listObjectVersionsCore (allObjects0 : List ObjectInfo)
    (keyMarker versionIDMarker : String) (maxKeys : Int) :
    Option ListObjectVersionsInfo :=
  let afterMarker := lovMarkerTrim keyMarker versionIDMarker allObjects0
  let t := triageObjects afterMarker
  let commonPrefixes := t.1
  let allObjects := t.2
  if (allObjects.length : Int) > maxKeys then
    if maxKeys < 1 then none
    else
      let k := maxKeys.toNat
      match allObjects[k]? with
      | none => none
      | some nxt =>
        let shown := allObjects.take k
        match shown[k - 1]? with
        | none => none
        | some lastShown =>
          let tv := triageVersions (markLatest shown)
          some { isTruncated := true
                 keyMarker := lastShown.name
                 nextKeyMarker := nxt.name
                 versionIDMarker := lastShown.version
                 nextVersionIDMarker := nxt.version
                 commonPrefixes := commonPrefixes
                 version := tv.1
                 deleteMarker := tv.2 }
  else
    let tv := triageVersions (markLatest allObjects)
    some { isTruncated := false, keyMarker := "", nextKeyMarker := ""
           versionIDMarker := "", nextVersionIDMarker := ""
           commonPrefixes := commonPrefixes, version := tv.1, deleteMarker := tv.2 }

/-- `ListObjectVersions`: the listing-cache lookup followed by the core
pipeline.  `cached` is the listing-cache entry, `discovered` what the backend
search plus per-key filtering would yield on a cache miss; the boolean of the
result records whether the backend search ran.  There is no max-keys guard
anywhere before the search. -/
def ListObjectVersions (cached : Option (List ObjectInfo))
    (discovered : List ObjectInfo) (keyMarker versionIDMarker : String)
    (maxKeys : Int) : Option ListObjectVersionsInfo × Bool :=
  match cached with
  | some allObjects => (listObjectVersionsCore allObjects keyMarker versionIDMarker maxKeys, false)
  | none => (listObjectVersionsCore discovered keyMarker versionIDMarker maxKeys, true)

/-- The V1 listing answer, restricted to the fields the engine writes. -/
structure ListObjectsInfoV1 where
  isTruncated : Bool
  nextMarker : String
  prefixes : List String
  objects : List ObjectInfo
deriving DecidableEq, Repr

/-- The V2 listing answer, restricted to the fields the engine writes. -/
structure ListObjectsInfoV2 where
  isTruncated : Bool
  nextContinuationToken : String
  prefixes : List String
  objects : List ObjectInfo
deriving DecidableEq, Repr

/-- `ListObjectsV1`.  `allObjectsSearched` stands for what `listAllObjects`
would return; the boolean of the result records whether that backend search
ran (the `MaxKeys == 0` guard returns before it).  `none` stands for the
runtime fault of `allObjects[:p.MaxKeys]` with a negative bound. -/
def ListObjectsV1 (allObjectsSearched : List ObjectInfo) (marker : String)
    (maxKeys : Int) : Option ListObjectsInfoV1 × Bool :=
  if maxKeys = 0 then
    (some { isTruncated := false, nextMarker := "", prefixes := [], objects := [] }, false)
  else
    let res : Option ListObjectsInfoV1 :=
      if allObjectsSearched = [] then
        some { isTruncated := false, nextMarker := "", prefixes := [], objects := [] }
      else
        let allObjects :=
          if marker ≠ "" then trimAfterObjectName marker allObjectsSearched
          else allObjectsSearched
        if (allObjects.length : Int) > maxKeys then
          if maxKeys < 0 then none
          else
            let shown := allObjects.take maxKeys.toNat
            match shown.getLast? with
            | none => none
            | some last =>
              let t := triageObjects shown
              some { isTruncated := true, nextMarker := last.name
                     prefixes := t.1, objects := t.2 }
        else
          let t := triageObjects allObjects
          some { isTruncated := false, nextMarker := "", prefixes := t.1, objects := t.2 }
    (res, true)

/-- `ListObjectsV2`, same conventions as `ListObjectsV1`. -/
def ListObjectsV2 (allObjectsSearched : List ObjectInfo)
    (continuationToken startAfter : String) (maxKeys : Int) :
    Option ListObjectsInfoV2 × Bool :=
  if maxKeys = 0 then
    (some { isTruncated := false, nextContinuationToken := "", prefixes := [], objects := [] },
     false)
  else
    let res : Option ListObjectsInfoV2 :=
      if allObjectsSearched = [] then
        some { isTruncated := false, nextContinuationToken := "", prefixes := [], objects := [] }
      else
        let a1 :=
          if continuationToken ≠ "" then trimAfterObjectID continuationToken allObjectsSearched
          else allObjectsSearched
        let allObjects :=
          if startAfter ≠ "" then trimAfterObjectName startAfter a1 else a1
        if (allObjects.length : Int) > maxKeys then
          if maxKeys < 0 then none
          else
            let shown := allObjects.take maxKeys.toNat
            match shown.getLast? with
            | none => none
            | some last =>
              let t := triageObjects shown
              some { isTruncated := true, nextContinuationToken := last.version
                     prefixes := t.1, objects := t.2 }
        else
          let t := triageObjects allObjects
          some { isTruncated := false, nextContinuationToken := ""
                 prefixes := t.1, objects := t.2 }
    (res, true)

/-!  Concrete sample data used by counterexamples and witnesses. -/

/-- A plain write of key `k`, id `A`, epoch 1, no prior headers. -/
def sampleA1 : ObjectInfo := ⟨"k", "A", 1, "", "", "", "", false⟩

/-- A later write of key `k`, id `B`, epoch 2, carrying the prior add-list. -/
def sampleB2 : ObjectInfo := ⟨"k", "B", 2, "A", "", "", "", false⟩

/-- A full-object delete marker for key `k`, id `C`, epoch 3. -/
def sampleC3 : ObjectInfo := ⟨"k", "C", 3, "A,B", "", "*", "", false⟩

/-- A specific-version delete marker: id `D`, epoch 2, tombstoning id `A`
(del-list `A`, delete-mark header `A`). -/
def sampleD2 : ObjectInfo := ⟨"k", "D", 2, "A", "A", "A", "", false⟩

/-- A prior write marked unversioned. -/
def sampleU1 : ObjectInfo := ⟨"k", "A", 1, "", "", "", "true", false⟩

/-- A later plain write whose del header tombstones id `D0`. -/
def sampleU2 : ObjectInfo := ⟨"k", "B", 2, "A", "D0", "", "", false⟩

/-- An incoming PUT header naming id `X` in its del attribute (the shape a
specific-version delete gives it). -/
def sampleHdrX : PutHeader := ⟨"", "", "X"⟩

/-- A single listable leaf object. -/
def sampleW : ObjectInfo := ⟨"w", "V", 1, "", "", "", "", false⟩

/-- Leaf object named `a`. -/
def sampleLa : ObjectInfo := ⟨"a", "va", 1, "", "", "", "", false⟩

/-- Leaf object named `b`. -/
def sampleLb : ObjectInfo := ⟨"b", "vb", 2, "", "", "", "", false⟩

/-- Leaf object named `c`. -/
def sampleLc : ObjectInfo := ⟨"c", "vc", 3, "", "", "", "", false⟩

/-- The VersionSet of the spec's example: writes `(epoch 1, A)` then
`(epoch 2, B)`, no deletions. -/
def vsAB : objectVersions := foldVersions (newObjectVersions "k") [sampleA1, sampleB2]

/-- `vsAB` after a full-object delete mark `(epoch 3, C)` is folded in. -/
def vsABC : objectVersions := foldVersions (newObjectVersions "k") [sampleA1, sampleB2, sampleC3]

/-- A VersionSet whose newest eligible version is a specific-version delete
marker: write `A` at epoch 1, then marker `D` at epoch 2 tombstoning `A`. -/
def vsSpecificMark : objectVersions := foldVersions (newObjectVersions "k") [sampleA1, sampleD2]

/-- A VersionSet with one prior unversioned write. -/
def vsUnversioned : objectVersions := foldVersions (newObjectVersions "k") [sampleU1]

/-- A VersionSet with a prior unversioned write and a tombstoned id `D0`. -/
def vsUnversionedDel : objectVersions := foldVersions (newObjectVersions "k") [sampleU1, sampleU2]

/-!  Basic lemmas about the list helpers. -/

lemma contains_eq_true_iff (l : List String) (x : String) : contains l x = true ↔ x ∈ l := by
  induction l with
  | nil => simp [contains]
  | cons a as ih =>
    by_cases h : x = a <;> simp [contains, h, ih]

lemma mem_foldl_addUnique (as init : List String) (x : String) :
    x ∈ as.foldl addUnique init ↔ x ∈ init ∨ x ∈ as := by
  induction as generalizing init with
  | nil => simp
  | cons a as ih =>
    rw [List.foldl_cons, ih]
    by_cases h : contains init a = true
    · have ha : a ∈ init := (contains_eq_true_iff init a).mp h
      have he : addUnique init a = init := by unfold addUnique; rw [if_pos h]
      rw [he]
      simp only [List.mem_cons]
      constructor
      · rintro (h1 | h2)
        · exact Or.inl h1
        · exact Or.inr (Or.inr h2)
      · rintro (h1 | h2 | h3)
        · exact Or.inl h1
        · exact Or.inl (h2 ▸ ha)
        · exact Or.inr h3
    · have he : addUnique init a = init ++ [a] := by unfold addUnique; rw [if_neg h]
      rw [he]
      simp only [List.mem_append, List.mem_singleton, List.mem_cons]
      tauto

lemma foldl_addUnique_eq_self (as init : List String) (h : ∀ a ∈ as, a ∈ init) :
    as.foldl addUnique init = init := by
  induction as with
  | nil => rfl
  | cons a as ih =>
    rw [List.foldl_cons]
    have ha : addUnique init a = init := by
      unfold addUnique
      rw [if_pos ((contains_eq_true_iff init a).mpr (h a (List.mem_cons_self a as)))]
    rw [ha]
    exact ih (fun b hb => h b (List.mem_cons_of_mem a hb))

/-- The ids one folded version contributes to the add-list. -/
def addsOf (oi : ObjectInfo) : List String := splitVersions oi.addHeader ++ [oi.version]

/-- The ids one folded version contributes to the del-list. -/
def delsOf (oi : ObjectInfo) : List String := splitVersions oi.delHeader

lemma appendVersion_addList (v : objectVersions) (oi : ObjectInfo) :
    (appendVersion v oi).addList = (addsOf oi).foldl addUnique v.addList := rfl

lemma appendVersion_delList (v : objectVersions) (oi : ObjectInfo) :
    (appendVersion v oi).delList = (delsOf oi).foldl addUnique v.delList := rfl

lemma foldVersions_objects (v : objectVersions) (objs : List ObjectInfo) :
    (foldVersions v objs).objects = v.objects ++ objs := by
  induction objs generalizing v with
  | nil => simp [foldVersions]
  | cons o os ih =>
    show (foldVersions (appendVersion v o) os).objects = _
    rw [ih]
    simp [appendVersion]

lemma mem_addList_foldVersions (v : objectVersions) (objs : List ObjectInfo) (x : String) :
    x ∈ (foldVersions v objs).addList ↔ x ∈ v.addList ∨ ∃ oi ∈ objs, x ∈ addsOf oi := by
  induction objs generalizing v with
  | nil => simp [foldVersions]
  | cons o os ih =>
    show x ∈ (foldVersions (appendVersion v o) os).addList ↔ _
    rw [ih, appendVersion_addList, mem_foldl_addUnique]
    simp only [List.mem_cons]
    constructor
    · rintro ((h | h) | ⟨oi, hoi, hm⟩)
      · exact Or.inl h
      · exact Or.inr ⟨o, Or.inl rfl, h⟩
      · exact Or.inr ⟨oi, Or.inr hoi, hm⟩
    · rintro (h | ⟨oi, (rfl | hoi), hm⟩)
      · exact Or.inl (Or.inl h)
      · exact Or.inl (Or.inr hm)
      · exact Or.inr ⟨oi, hoi, hm⟩

lemma mem_delList_foldVersions (v : objectVersions) (objs : List ObjectInfo) (x : String) :
    x ∈ (foldVersions v objs).delList ↔ x ∈ v.delList ∨ ∃ oi ∈ objs, x ∈ delsOf oi := by
  induction objs generalizing v with
  | nil => simp [foldVersions]
  | cons o os ih =>
    show x ∈ (foldVersions (appendVersion v o) os).delList ↔ _
    rw [ih, appendVersion_delList, mem_foldl_addUnique]
    simp only [List.mem_cons]
    constructor
    · rintro ((h | h) | ⟨oi, hoi, hm⟩)
      · exact Or.inl h
      · exact Or.inr ⟨o, Or.inl rfl, h⟩
      · exact Or.inr ⟨oi, Or.inr hoi, hm⟩
    · rintro (h | ⟨oi, (rfl | hoi), hm⟩)
      · exact Or.inl (Or.inl h)
      · exact Or.inl (Or.inr hm)
      · exact Or.inr ⟨oi, hoi, hm⟩

lemma contains_eq_false_iff (l : List String) (x : String) :
    contains l x = false ↔ x ∉ l := by
  rw [← Bool.not_eq_true, not_iff_not]
  exact contains_eq_true_iff l x

lemma mem_getExistedVersions (v : objectVersions) (x : String) :
    x ∈ getExistedVersions v ↔ x ∈ v.addList ∧ x ∉ v.delList := by
  simp only [getExistedVersions, List.mem_filter, Bool.not_eq_true']
  rw [contains_eq_false_iff]

/-- C4: folding the physical versions of a key into a VersionSet via
`appendVersion` is commutative on the derived existing-set: for any two
orders of the same finite collection, membership in
`existing = union(add-lists) − union(del-lists)` is the same. -/
theorem existing_set_fold_commutative (name : String) (l1 l2 : List ObjectInfo)
    (h : l1.Perm l2) (x : String) :
    x ∈ getExistedVersions (foldVersions (newObjectVersions name) l1) ↔
      x ∈ getExistedVersions (foldVersions (newObjectVersions name) l2) := by
  rw [mem_getExistedVersions, mem_getExistedVersions,
    mem_addList_foldVersions, mem_addList_foldVersions,
    mem_delList_foldVersions, mem_delList_foldVersions]
  have hadd : (∃ oi ∈ l1, x ∈ addsOf oi) ↔ ∃ oi ∈ l2, x ∈ addsOf oi := by
    constructor
    · rintro ⟨oi, hm, hx⟩; exact ⟨oi, h.mem_iff.mp hm, hx⟩
    · rintro ⟨oi, hm, hx⟩; exact ⟨oi, h.mem_iff.mpr hm, hx⟩
  have hdel : (∃ oi ∈ l1, x ∈ delsOf oi) ↔ ∃ oi ∈ l2, x ∈ delsOf oi := by
    constructor
    · rintro ⟨oi, hm, hx⟩; exact ⟨oi, h.mem_iff.mp hm, hx⟩
    · rintro ⟨oi, hm, hx⟩; exact ⟨oi, h.mem_iff.mpr hm, hx⟩
  rw [hadd, hdel]

/-- Witness for C4 at a concrete pair of fold orders. -/
theorem existing_set_fold_commutative_witness :
    [sampleA1, sampleD2].Perm [sampleD2, sampleA1] ∧
      ("A" ∈ getExistedVersions (foldVersions (newObjectVersions "k") [sampleA1, sampleD2]) ↔
        "A" ∈ getExistedVersions (foldVersions (newObjectVersions "k") [sampleD2, sampleA1])) :=
  ⟨by decide, existing_set_fold_commutative "k" [sampleA1, sampleD2] [sampleD2, sampleA1]
    (by decide) "A"⟩

/-- C6 (code bug evaluation): with a max result count of zero, `ListObjectsV1`
and `ListObjectsV2` return an empty, non-truncated result without the backend
search, but `ListObjectVersions` has no such guard: on a cold cache it runs
the backend search (`true` flag) and then faults in its truncation step
(`none`, the `allObjects[p.MaxKeys-1]` access with `MaxKeys-1 = -1`) as soon
as one object version is visible. -/
theorem listing_maxKeys_zero_eval :
    ListObjectsV1 [sampleW] "" 0 =
      (some { isTruncated := false, nextMarker := "", prefixes := [], objects := [] }, false) ∧
    ListObjectsV2 [sampleW] "" "" 0 =
      (some { isTruncated := false, nextContinuationToken := "", prefixes := [], objects := [] },
        false) ∧
    ListObjectVersions none [sampleW] "" "" 0 = (none, true) := by decide

/-- C9 (code bug evaluation): the truncation step of `ListObjectVersions` is
not total: at max result count zero with one visible leaf object version it
reaches the out-of-range access `allObjects[p.MaxKeys-1]` (= index -1), a
runtime fault, modelled as `none`. -/
theorem listObjectVersions_truncation_panic_eval :
    listObjectVersionsCore [sampleW] "" "" 0 = none ∧ sampleW.isDir = false := by decide

/-- C1 counterexample: on a VersionSet whose newest eligible version is a
specific-version delete marker (`sampleD2`, delete-mark header `A`, neither
absent nor the sentinel `*`), the claimed resolution rule (`specGetLast`,
worded from the spec: return the first eligible version unless it carries
`*`) answers that marker, while the code's `getLast` skips it, keeps
scanning and returns "not found". -/
theorem getLast_specific_delete_mark_counterexample :
    getLast vsSpecificMark = none ∧ specGetLast vsSpecificMark = some sampleD2 ∧
      sampleD2.delMarkHeader ≠ "" ∧ sampleD2.delMarkHeader ≠ delMarkFullObject := by decide

/-- C3 counterexample: the same specific-version delete marker is eligible
(its id `D` is in the existing-set) yet `getFiltered` omits it, so filtered
history does not return every eligible version. -/
theorem getFiltered_omits_eligible_version_counterexample :
    getFiltered vsSpecificMark = [] ∧ sampleD2 ∈ vsSpecificMark.objects ∧
      contains (getExistedVersions vsSpecificMark) sampleD2.version = true := by decide

/-- C2 counterexample: with versioning disabled, a non-empty prior VersionSet
holding one unversioned prior version, and an incoming header naming id `X`
in its del attribute, the merge writes del-list `A` (the prior unversioned
id); the incoming id `X` is overwritten, not united, so the claimed
del-list union does not hold. -/
theorem updateCRDT_disabled_drops_incoming_del_counterexample :
    updateCRDT2PSetHeaders sampleHdrX vsUnversioned false =
      ({ unversionedAttr := "true", addAttr := "A", delAttr := "A" }, ["A"]) ∧
    sampleHdrX.delAttr = "X" ∧
    "X" ∉ splitVersions (updateCRDT2PSetHeaders sampleHdrX vsUnversioned false).1.delAttr := by
  decide

/-- C7 counterexample: version-listing cursor application is inclusive, not
strictly-after: with the (key, version-id) marker equal to the single
element, the code keeps that element (and a marker past the last element
leaves the sequence untouched rather than empty). -/
theorem version_listing_marker_inclusive_counterexample :
    lovMarkerTrim sampleLa.name sampleLa.version [sampleLa] = [sampleLa] ∧
      lovMarkerTrim "z" "z" [sampleLa] = [sampleLa] ∧ [sampleLa] ≠ ([] : List ObjectInfo) := by
  decide

/-- C8 counterexample: for flat V1 listing of two keys with max result count
1, the next cursor is the name of the last element shown (`a`, index 0), not
of the first element past the truncation point (`b`, index 1). -/
theorem listV1_next_marker_counterexample :
    (ListObjectsV1 [sampleLa, sampleLb] "" 1).1 =
      some { isTruncated := true, nextMarker := sampleLa.name, prefixes := []
             objects := [sampleLa] } ∧
    sampleLa.name ≠ sampleLb.name := by decide

/-!  Order lemmas for the embedded string comparison and `less`. -/

lemma listCharLt_nil_right (l : List Char) : listCharLt l [] = false := by
  cases l <;> rfl

lemma listCharLt_irrefl (l : List Char) : listCharLt l l = false := by
  induction l with
  | nil => rfl
  | cons a as ih => simp [listCharLt, lt_irrefl, ih]

lemma listCharLt_asymm : ∀ {l1 l2 : List Char}, listCharLt l1 l2 = true → listCharLt l2 l1 = false
  | [], [], h => by simp [listCharLt] at h
  | [], _ :: _, _ => listCharLt_nil_right _
  | _ :: _, [], h => by simp [listCharLt] at h
  | a :: as, b :: bs, h => by
    by_cases hab : a < b
    · have hba : ¬b < a := lt_asymm hab
      simp [listCharLt, hba, hab]
    · by_cases hba : b < a
      · simp [listCharLt, hab, hba] at h
      · simp only [listCharLt, if_neg hab, if_neg hba] at h
        simp [listCharLt, hab, hba, listCharLt_asymm h]

lemma listCharLt_trans : ∀ {l1 l2 l3 : List Char},
    listCharLt l1 l2 = true → listCharLt l2 l3 = true → listCharLt l1 l3 = true
  | [], [], _, h1, _ => by simp [listCharLt] at h1
  | [], _ :: _, [], _, h2 => by simp [listCharLt] at h2
  | [], _ :: _, _ :: _, _, _ => rfl
  | _ :: _, [], _, h1, _ => by simp [listCharLt] at h1
  | _ :: _, _ :: _, [], _, h2 => by simp [listCharLt] at h2
  | a :: as, b :: bs, c :: cs, h1, h2 => by
    by_cases hab : a < b
    · by_cases hbc : b < c
      · simp [listCharLt, lt_trans hab hbc]
      · by_cases hcb : c < b
        · simp [listCharLt, hbc, hcb] at h2
        · have hbc' : b = c := le_antisymm (le_of_not_lt hcb) (le_of_not_lt hbc)
          simp [listCharLt, hbc' ▸ hab]
    · by_cases hba : b < a
      · simp [listCharLt, hab, hba] at h1
      · have hab' : a = b := le_antisymm (le_of_not_lt hba) (le_of_not_lt hab)
        subst hab'
        simp only [listCharLt, if_neg hab, if_neg hba] at h1
        by_cases hbc : a < c
        · simp [listCharLt, hbc]
        · by_cases hcb : c < a
          · simp [listCharLt, hbc, hcb] at h2
          · simp only [listCharLt, if_neg hbc, if_neg hcb] at h2 ⊢
            exact listCharLt_trans h1 h2

lemma listCharLt_eq_of_not : ∀ {l1 l2 : List Char},
    listCharLt l1 l2 = false → listCharLt l2 l1 = false → l1 = l2
  | [], [], _, _ => rfl
  | [], _ :: _, h1, _ => by simp [listCharLt] at h1
  | _ :: _, [], _, h2 => by simp [listCharLt] at h2
  | a :: as, b :: bs, h1, h2 => by
    by_cases hab : a < b
    · simp [listCharLt, hab] at h1
    · by_cases hba : b < a
      · simp [listCharLt, hba, hab] at h2
      · have hab' : a = b := le_antisymm (le_of_not_lt hba) (le_of_not_lt hab)
        simp only [listCharLt, if_neg hab, if_neg hba] at h1
        simp only [listCharLt, if_neg hba, if_neg hab] at h2
        rw [hab', listCharLt_eq_of_not h1 h2]

lemma strLt_irrefl (s : String) : strLt s s = false := listCharLt_irrefl s.data

lemma strLt_asymm {s t : String} (h : strLt s t = true) : strLt t s = false :=
  listCharLt_asymm h

lemma strLt_trans {s t u : String} (h1 : strLt s t = true) (h2 : strLt t u = true) :
    strLt s u = true := listCharLt_trans h1 h2

lemma strLt_eq_of_not {s t : String} (h1 : strLt s t = false) (h2 : strLt t s = false) :
    s = t := by
  cases s with
  | mk d1 =>
    cases t with
    | mk d2 =>
      have : d1 = d2 := listCharLt_eq_of_not h1 h2
      rw [this]

lemma strLe_empty_left (s : String) : strLe "" s = true := by
  unfold strLe strLt
  rw [show ("" : String).data = [] from rfl, listCharLt_nil_right]
  rfl

lemma less_irrefl (a : ObjectInfo) : less a a = false := by
  simp [less, strLt_irrefl]

lemma less_asymm {a b : ObjectInfo} (h : less a b = true) : less b a = false := by
  unfold less at h ⊢
  by_cases hep : a.creationEpoch = b.creationEpoch
  · rw [if_pos hep] at h
    rw [if_pos hep.symm]
    exact strLt_asymm h
  · rw [if_neg hep] at h
    rw [if_neg (fun hx => hep hx.symm)]
    simp only [decide_eq_true_eq] at h
    simp [Nat.lt_asymm h]

lemma less_trans {a b c : ObjectInfo} (h1 : less a b = true) (h2 : less b c = true) :
    less a c = true := by
  unfold less at h1 h2 ⊢
  by_cases hab : a.creationEpoch = b.creationEpoch
  · rw [if_pos hab] at h1
    by_cases hbc : b.creationEpoch = c.creationEpoch
    · rw [if_pos hbc] at h2
      rw [if_pos (hab.trans hbc)]
      exact strLt_trans h1 h2
    · rw [if_neg hbc] at h2
      rw [if_neg (fun hx => hbc (hab ▸ hx))]
      exact hab ▸ h2
  · rw [if_neg hab] at h1
    simp only [decide_eq_true_eq] at h1
    by_cases hbc : b.creationEpoch = c.creationEpoch
    · rw [if_neg (fun hx => hab (hbc ▸ hx)), decide_eq_true_eq]
      exact hbc ▸ h1
    · rw [if_neg hbc] at h2
      simp only [decide_eq_true_eq] at h2
      have hac : a.creationEpoch < c.creationEpoch := Nat.lt_trans h1 h2
      rw [if_neg (fun hx => Nat.lt_irrefl _ (hx ▸ hac)), decide_eq_true_eq]
      exact hac

lemma less_total_eq {a b : ObjectInfo} (h1 : less a b = false) (h2 : less b a = false) :
    a.creationEpoch = b.creationEpoch ∧ a.version = b.version := by
  unfold less at h1 h2
  by_cases hep : a.creationEpoch = b.creationEpoch
  · rw [if_pos hep] at h1
    rw [if_pos hep.symm] at h2
    exact ⟨hep, strLt_eq_of_not h1 h2⟩
  · rw [if_neg hep] at h1
    rw [if_neg (fun hx => hep hx.symm)] at h2
    simp only [decide_eq_false_iff_not] at h1 h2
    omega

/-!  Sorting infrastructure: the insertion-sort embedding of `sort.Slice`. -/

/-- The non-strict order `a` may precede `b` in a `less`-sorted list. -/
def oLe (a b : ObjectInfo) : Prop := less b a = false

lemma insertSorted_perm (x : ObjectInfo) (s : List ObjectInfo) :
    (insertSorted x s).Perm (x :: s) := by
  induction s with
  | nil => exact List.Perm.refl _
  | cons y ys ih =>
    unfold insertSorted
    by_cases h : less x y = true
    · rw [if_pos h]
    · rw [if_neg h]
      exact (ih.cons y).trans (List.Perm.swap x y ys)

lemma mem_insertSorted {x z : ObjectInfo} {s : List ObjectInfo} :
    z ∈ insertSorted x s ↔ z = x ∨ z ∈ s := by
  rw [(insertSorted_perm x s).mem_iff, List.mem_cons]

lemma insertSorted_pairwise {x : ObjectInfo} {s : List ObjectInfo}
    (hs : s.Pairwise oLe) : (insertSorted x s).Pairwise oLe := by
  induction s with
  | nil => simp [insertSorted, List.pairwise_singleton]
  | cons y ys ih =>
    rw [List.pairwise_cons] at hs
    obtain ⟨hy, hys⟩ := hs
    unfold insertSorted
    by_cases h : less x y = true
    · rw [if_pos h]
      refine List.Pairwise.cons ?_ (List.Pairwise.cons hy hys)
      intro z hz
      rcases List.mem_cons.mp hz with rfl | hz
      · exact less_asymm h
      · show less z x = false
        by_cases hzx : less z x = true
        · have : less z y = true := less_trans hzx h
          rw [hy z hz] at this
          exact absurd this (by simp)
        · simpa using hzx
    · rw [if_neg h]
      refine List.Pairwise.cons ?_ (ih hys)
      intro z hz
      rcases mem_insertSorted.mp hz with rfl | hz
      · show less z y = false
        simpa using h
      · exact hy z hz

lemma sortObjects_go_pairwise (l acc : List ObjectInfo) (hacc : acc.Pairwise oLe) :
    (l.foldl (fun acc x => insertSorted x acc) acc).Pairwise oLe := by
  induction l generalizing acc with
  | nil => exact hacc
  | cons x xs ih => exact ih _ (insertSorted_pairwise hacc)

lemma sortObjects_pairwise (l : List ObjectInfo) : (sortObjects l).Pairwise oLe :=
  sortObjects_go_pairwise l [] List.Pairwise.nil

lemma sortObjects_go_perm (l acc : List ObjectInfo) :
    (l.foldl (fun acc x => insertSorted x acc) acc).Perm (acc ++ l) := by
  induction l generalizing acc with
  | nil => simp
  | cons x xs ih =>
    rw [List.foldl_cons]
    refine (ih (insertSorted x acc)).trans ?_
    refine (((insertSorted_perm x acc).append_right xs)).trans ?_
    exact List.perm_middle.symm.trans (List.Perm.refl _) |>.symm.symm

lemma sortObjects_perm (l : List ObjectInfo) : (sortObjects l).Perm l :=
  sortObjects_go_perm l []

lemma sortObjects_append_singleton (l : List ObjectInfo) (x : ObjectInfo) :
    sortObjects (l ++ [x]) = insertSorted x (sortObjects l) := by
  unfold sortObjects
  rw [List.foldl_append]
  rfl

/-!  The `getLast` scan as a `find?` over the reversed sorted list. -/

/-- The predicate on which the `getLast` scan stops: eligible, and the
delete-mark header is absent or the full-object sentinel. -/
def eligibleKeep (existedVersions : List String) (o : ObjectInfo) : Bool :=
  contains existedVersions o.version &&
    (o.delMarkHeader == "" || o.delMarkHeader == delMarkFullObject)

/-- What the scan answers once it stops on `o`. -/
def keepResult (o : ObjectInfo) : Option ObjectInfo :=
  if o.delMarkHeader = "" then some o else none

lemma scanLast_eq_find (ex : List String) (l : List ObjectInfo) :
    scanLast ex l = (l.find? (eligibleKeep ex)).bind keepResult := by
  induction l with
  | nil => simp [scanLast]
  | cons o rest ih =>
    unfold scanLast
    by_cases h1 : contains ex o.version = true
    · by_cases h2 : o.delMarkHeader = ""
      · have hk : eligibleKeep ex o = true := by simp [eligibleKeep, h1, h2]
        rw [if_pos h1, if_pos h2, List.find?_cons_of_pos _ hk]
        simp [keepResult, h2]
      · by_cases h3 : o.delMarkHeader = delMarkFullObject
        · have hk : eligibleKeep ex o = true := by simp [eligibleKeep, h1, h3]
          rw [if_pos h1, if_neg h2, if_pos h3, List.find?_cons_of_pos _ hk]
          simp [keepResult, h2]
        · have hk : eligibleKeep ex o = false := by
            simp [eligibleKeep, h1, h2, h3]
          rw [if_pos h1, if_neg h2, if_neg h3, List.find?_cons_of_neg _ (by simp [hk]), ih]
    · have hk : eligibleKeep ex o = false := by simp [eligibleKeep, h1]
      rw [if_neg h1, List.find?_cons_of_neg _ (by simp [hk]), ih]

lemma find?_append {α : Type} (p : α → Bool) (l1 l2 : List α) :
    (l1 ++ l2).find? p = ((l1.find? p).orElse (fun _ => l2.find? p)) := by
  induction l1 with
  | nil => simp [Option.orElse]
  | cons a as ih =>
    by_cases h : p a = true
    · rw [List.cons_append, List.find?_cons_of_pos _ h, List.find?_cons_of_pos _ h]
      rfl
    · rw [List.cons_append, List.find?_cons_of_neg _ (by simp [h]),
        List.find?_cons_of_neg _ (by simp [h]), ih]

lemma find?_reverse_cons {α : Type} (p : α → Bool) (y : α) (t : List α) :
    (y :: t).reverse.find? p =
      ((t.reverse.find? p).orElse (fun _ => if p y then some y else none)) := by
  rw [List.reverse_cons, find?_append]
  congr 1
  funext u
  by_cases h : p y = true
  · rw [List.find?_cons_of_pos _ h, if_pos h]
  · rw [List.find?_cons_of_neg _ (by simp [h]), if_neg (by simp [h])]
    rfl

/-- C1 (amended): `getLast` scans the totally-ordered versions newest to
oldest and stops on the first eligible version whose delete-mark header is
absent or the full-object sentinel, answering that version when the header
is absent and "not found" when it is the sentinel; eligible versions
carrying a specific-version delete mark are passed over like ineligible
ones, and with no stopping version the answer is "not found".  The closed
conjuncts check the spec's example: `{(epoch 1, A), (epoch 2, B)}` resolves
to `B`, and adding a full-object delete mark `(epoch 3, C)` resolves to
"not found". -/
theorem getLast_resolution_characterization :
    (∀ v : objectVersions,
      getLast v =
        ((sortObjects v.objects).reverse.find? (eligibleKeep (getExistedVersions v))).bind
          keepResult) ∧
    getLast vsAB = some sampleB2 ∧ getLast vsABC = none := by
  refine ⟨?_, by decide, by decide⟩
  intro v
  unfold getLast
  by_cases hv : v.objects = []
  · rw [if_pos hv, hv]
    rfl
  · rw [if_neg hv, scanLast_eq_find]

/-- C3 (amended): `getFiltered` applies the same existing-set eligibility
filter as `getLast` and returns, in total order, exactly the eligible
versions whose delete-mark header is absent (live payload versions) or the
full-object sentinel (delete markers); eligible versions bearing a
specific-version delete mark are omitted. -/
theorem getFiltered_membership_and_order (v : objectVersions) :
    (getFiltered v).Pairwise oLe ∧
    ∀ o : ObjectInfo, o ∈ getFiltered v ↔
      o ∈ v.objects ∧ contains (getExistedVersions v) o.version = true ∧
        (o.delMarkHeader = delMarkFullObject ∨ o.delMarkHeader = "") := by
  unfold getFiltered
  by_cases hv : v.objects = []
  · rw [if_pos hv]
    refine ⟨List.Pairwise.nil, ?_⟩
    intro o
    simp [hv]
  · rw [if_neg hv]
    refine ⟨List.Pairwise.filter _ (sortObjects_pairwise _), ?_⟩
    intro o
    rw [List.mem_filter, (sortObjects_perm v.objects).mem_iff]
    simp [Bool.and_eq_true, Bool.or_eq_true, beq_iff_eq]

/-!  Replay idempotence: inserting a value copy of an element already in a
sorted list does not change what the newest-to-oldest scan finds. -/

lemma find?_reverse_insertSorted (p : ObjectInfo → Bool) (oi : ObjectInfo) :
    ∀ s : List ObjectInfo, s.Pairwise oLe → oi ∈ s →
      (∀ z ∈ s, z.creationEpoch = oi.creationEpoch → z.version = oi.version → z = oi) →
      (insertSorted oi s).reverse.find? p = s.reverse.find? p := by
  intro s
  induction s with
  | nil =>
    intro _ h _
    exact absurd h (List.not_mem_nil oi)
  | cons y ys ih =>
    intro hp hmem hinj
    rw [List.pairwise_cons] at hp
    obtain ⟨hy, hys⟩ := hp
    by_cases hlt : less oi y = true
    · exfalso
      rcases List.mem_cons.mp hmem with rfl | hin
      · rw [less_irrefl] at hlt
        exact Bool.false_ne_true hlt
      · rw [hy oi hin] at hlt
        exact Bool.false_ne_true hlt
    · unfold insertSorted
      rw [if_neg hlt]
      rw [find?_reverse_cons, find?_reverse_cons]
      by_cases hin : oi ∈ ys
      · rw [ih hys hin (fun z hz => hinj z (List.mem_cons_of_mem y hz))]
      · have hoy : oi = y := by
          rcases List.mem_cons.mp hmem with rfl | h
          · rfl
          · exact absurd h hin
        have hins : insertSorted oi ys = oi :: ys := by
          cases ys with
          | nil => rfl
          | cons z zs =>
            have hz : less z oi = false := hoy ▸ hy z (List.mem_cons_self z zs)
            have hlt2 : less oi z = true := by
              by_cases h2 : less oi z = true
              · exact h2
              · exfalso
                have h2' : less oi z = false := by simpa using h2
                obtain ⟨hep, hver⟩ := less_total_eq h2' hz
                have hzo : z = oi :=
                  hinj z (List.mem_cons_of_mem y (List.mem_cons_self z zs)) hep.symm hver.symm
                exact hin (hzo ▸ List.mem_cons_self z zs)
            unfold insertSorted
            rw [if_pos hlt2]
        rw [hins, find?_reverse_cons, hoy]
        cases hF : ys.reverse.find? p with
        | some a => rfl
        | none =>
          cases hpy : p y <;> simp [Option.orElse, hpy]

/-- C5: re-folding a physical version already included in a VersionSet (built
from versions whose ids determine them, as backend-assigned ids are globally
unique) changes neither the existing-set nor the resolved current version. -/
theorem appendVersion_replay_idempotent (name : String) (l : List ObjectInfo) (oi : ObjectInfo)
    (hinj : ∀ a ∈ l, ∀ b ∈ l, a.version = b.version → a = b) (hoi : oi ∈ l) :
    getExistedVersions (appendVersion (foldVersions (newObjectVersions name) l) oi) =
      getExistedVersions (foldVersions (newObjectVersions name) l) ∧
    getLast (appendVersion (foldVersions (newObjectVersions name) l) oi) =
      getLast (foldVersions (newObjectVersions name) l) := by
  set v := foldVersions (newObjectVersions name) l with hv
  have hobj : v.objects = l := by
    rw [hv, foldVersions_objects]
    rfl
  have hadd : (appendVersion v oi).addList = v.addList := by
    rw [appendVersion_addList]
    refine foldl_addUnique_eq_self _ _ ?_
    intro a ha
    rw [hv, mem_addList_foldVersions]
    exact Or.inr ⟨oi, hoi, ha⟩
  have hdel : (appendVersion v oi).delList = v.delList := by
    rw [appendVersion_delList]
    refine foldl_addUnique_eq_self _ _ ?_
    intro a ha
    rw [hv, mem_delList_foldVersions]
    exact Or.inr ⟨oi, hoi, ha⟩
  have hex : getExistedVersions (appendVersion v oi) = getExistedVersions v := by
    unfold getExistedVersions
    rw [hadd, hdel]
  refine ⟨hex, ?_⟩
  have hobj' : (appendVersion v oi).objects = l ++ [oi] := by
    show v.objects ++ [oi] = _
    rw [hobj]
  have hne : l ≠ [] := List.ne_nil_of_mem hoi
  have hne' : l ++ [oi] ≠ [] := by simp
  unfold getLast
  rw [hobj, hobj', if_neg hne, if_neg hne', hex, sortObjects_append_singleton,
    scanLast_eq_find, scanLast_eq_find]
  congr 1
  refine find?_reverse_insertSorted _ oi (sortObjects l) (sortObjects_pairwise l)
    ((sortObjects_perm l).mem_iff.mpr hoi) ?_
  intro z hz _ hver
  exact hinj z ((sortObjects_perm l).mem_iff.mp hz) oi hoi hver

/-- Witness for C5 at a concrete VersionSet and replayed version. -/
theorem appendVersion_replay_idempotent_witness :
    (∀ a ∈ [sampleA1, sampleB2], ∀ b ∈ [sampleA1, sampleB2], a.version = b.version → a = b) ∧
    sampleA1 ∈ [sampleA1, sampleB2] ∧
    (getExistedVersions
        (appendVersion (foldVersions (newObjectVersions "k") [sampleA1, sampleB2]) sampleA1) =
      getExistedVersions (foldVersions (newObjectVersions "k") [sampleA1, sampleB2]) ∧
     getLast (appendVersion (foldVersions (newObjectVersions "k") [sampleA1, sampleB2]) sampleA1) =
      getLast (foldVersions (newObjectVersions "k") [sampleA1, sampleB2])) :=
  ⟨by decide, by decide,
    appendVersion_replay_idempotent "k" [sampleA1, sampleB2] sampleA1 (by decide) (by decide)⟩

/-!  Cursor application lemmas. -/

lemma strLt_of_lt_of_nlt {m a b : String} (h1 : strLt m a = true) (h2 : strLt b a = false) :
    strLt m b = true := by
  by_cases hmb : strLt m b = true
  · exact hmb
  · by_cases hbm : strLt b m = true
    · rw [strLt_trans hbm h1] at h2
      exact absurd h2 (by simp)
    · have : m = b := strLt_eq_of_not (by simpa using hmb) (by simpa using hbm)
      rw [← this] at h2
      rw [h1] at h2
      exact absurd h2 (by simp)

lemma getLast?_mem {α : Type} : ∀ {l : List α} {x : α}, l.getLast? = some x → x ∈ l
  | [], _, h => by simp at h
  | [a], x, h => by
    simp only [List.getLast?_singleton, Option.some.injEq] at h
    simp [h]
  | _ :: b :: t, x, h => by
    have h' : (b :: t).getLast? = some x := h
    exact List.mem_cons_of_mem _ (getLast?_mem h')

lemma pairwise_nameLe_getLast? :
    ∀ {l : List ObjectInfo} {x : ObjectInfo},
      l.Pairwise (fun a b => strLt b.name a.name = false) → l.getLast? = some x →
      ∀ o ∈ l, strLt x.name o.name = false := by
  intro l
  induction l with
  | nil =>
    intro x _ h
    simp at h
  | cons a rest ih =>
    intro x hp h o ho
    rw [List.pairwise_cons] at hp
    obtain ⟨ha, hrest⟩ := hp
    cases rest with
    | nil =>
      simp only [List.getLast?_singleton, Option.some.injEq] at h
      rcases List.mem_singleton.mp ho with rfl
      rw [← h, strLt_irrefl]
    | cons b t =>
      have h' : (b :: t).getLast? = some x := h
      rcases List.mem_cons.mp ho with rfl | ho'
      · exact ha x (getLast?_mem h')
      · exact ih hrest h' o ho'

lemma dropUntilNameGt_eq_filter {m : String} {l : List ObjectInfo}
    (hs : l.Pairwise (fun a b => strLt b.name a.name = false)) :
    dropUntilNameGt m l = l.filter (fun o => strLt m o.name) := by
  induction l with
  | nil => rfl
  | cons o rest ih =>
    rw [List.pairwise_cons] at hs
    obtain ⟨ho, hrest⟩ := hs
    simp only [dropUntilNameGt]
    by_cases h : strLt m o.name = true
    · rw [if_pos h, @List.filter_cons_of_pos _ (fun z => strLt m z.name) o rest h]
      have hrf : rest.filter (fun z => strLt m z.name) = rest :=
        List.filter_eq_self.mpr (fun z hz => strLt_of_lt_of_nlt h (ho z hz))
      rw [hrf]
    · rw [if_neg h, @List.filter_cons_of_neg _ (fun z => strLt m z.name) o rest h, ih hrest]

lemma trimAfterObjectName_eq_filter (m : String) (l : List ObjectInfo)
    (hs : l.Pairwise (fun a b => strLt b.name a.name = false)) :
    trimAfterObjectName m l = l.filter (fun o => strLt m o.name) := by
  unfold trimAfterObjectName
  by_cases hg : l.getLast?.any (fun o => strLe o.name m) = true
  · rw [if_pos hg]
    cases hL : l.getLast? with
    | none => rw [hL] at hg; simp at hg
    | some last =>
      rw [hL] at hg
      simp only [Option.any_some] at hg
      have hx : strLt m last.name = false := by
        unfold strLe at hg
        simpa using hg
      symm
      rw [List.filter_eq_nil_iff]
      intro o ho hpred
      rw [strLt_of_lt_of_nlt hpred (pairwise_nameLe_getLast? hs hL o ho)] at hx
      exact absurd hx (by simp)
  · rw [if_neg hg]
    exact dropUntilNameGt_eq_filter hs

lemma dropThroughID_skip (id : String) :
    ∀ (l1 : List ObjectInfo) (x : ObjectInfo) (l2 : List ObjectInfo),
      x.version = id → (∀ z ∈ l1, z.version ≠ id) →
      dropThroughID id (l1 ++ x :: l2) = l2
  | [], x, l2, hx, _ => by
    rw [List.nil_append]
    simp only [dropThroughID]
    rw [if_pos hx]
  | a :: as, x, l2, hx, h1 => by
    have ha : a.version ≠ id := h1 a (List.mem_cons_self a as)
    rw [List.cons_append]
    simp only [dropThroughID]
    rw [if_neg ha]
    exact dropThroughID_skip id as x l2 hx (fun z hz => h1 z (List.mem_cons_of_mem a hz))

lemma dropThroughID_nomatch (id : String) :
    ∀ (l : List ObjectInfo), (∀ z ∈ l, z.version ≠ id) → dropThroughID id l = []
  | [], _ => rfl
  | a :: as, h => by
    simp only [dropThroughID]
    rw [if_neg (h a (List.mem_cons_self a as))]
    exact dropThroughID_nomatch id as (fun z hz => h z (List.mem_cons_of_mem a hz))

lemma trimAfterObjectID_after_marker (id : String) (l1 : List ObjectInfo) (x : ObjectInfo)
    (l2 : List ObjectInfo) (hx : x.version = id) (h1 : ∀ z ∈ l1, z.version ≠ id)
    (h2 : ∀ z ∈ l2, z.version ≠ id) :
    trimAfterObjectID id (l1 ++ x :: l2) = l2 := by
  unfold trimAfterObjectID
  cases hl2 : l2 with
  | nil =>
    subst hl2
    rw [show (x : ObjectInfo) :: ([] : List ObjectInfo) = [x] from rfl, List.getLast?_concat]
    simp only [Option.any_some]
    rw [if_pos (by simp [hx])]
  | cons c t =>
    subst hl2
    have hL : (l1 ++ x :: c :: t).getLast? = (c :: t).getLast? := by
      rw [List.getLast?_append]
      have hxl : (x :: c :: t).getLast? = (c :: t).getLast? := rfl
      rw [hxl]
      cases hc : (c :: t).getLast? with
      | none => simp at hc
      | some u => rfl
    rw [hL]
    cases hc : (c :: t).getLast? with
    | none => simp at hc
    | some u =>
      simp only [Option.any_some]
      have hu : u.version ≠ id := h2 u (getLast?_mem hc)
      rw [if_neg (by simpa using hu)]
      exact dropThroughID_skip id l1 x (c :: t) hx h1

lemma trimAfterObjectID_marker_absent (id : String) (l : List ObjectInfo)
    (h : ∀ z ∈ l, z.version ≠ id) : trimAfterObjectID id l = [] := by
  unfold trimAfterObjectID
  cases hL : l.getLast? with
  | none =>
    simp only [Option.any_none]
    rw [if_neg (by simp)]
    exact dropThroughID_nomatch id l h
  | some u =>
    simp only [Option.any_some]
    have hu : u.version ≠ id := h u (getLast?_mem hL)
    rw [if_neg (by simpa using hu)]
    exact dropThroughID_nomatch id l h

lemma lovTrimGo_nomatch (km vm : String) :
    ∀ (l : List ObjectInfo), (∀ o ∈ l, (strLe km o.name && strLe vm o.version) = false) →
      lovTrimGo km vm l = none
  | [], _ => rfl
  | a :: as, h => by
    simp only [lovTrimGo]
    rw [if_neg (by simp [h a (List.mem_cons_self a as)])]
    exact lovTrimGo_nomatch km vm as (fun z hz => h z (List.mem_cons_of_mem a hz))

lemma lovMarkerTrim_nomatch (km vm : String) (l : List ObjectInfo)
    (h : ∀ o ∈ l, (strLe km o.name && strLe vm o.version) = false) :
    lovMarkerTrim km vm l = l := by
  unfold lovMarkerTrim
  rw [lovTrimGo_nomatch km vm l h]
  rfl

lemma lovTrimGo_first_match (km vm : String) :
    ∀ (l1 : List ObjectInfo) (x : ObjectInfo) (l2 : List ObjectInfo),
      (∀ z ∈ l1, (strLe km z.name && strLe vm z.version) = false) →
      (strLe km x.name && strLe vm x.version) = true →
      lovTrimGo km vm (l1 ++ x :: l2) = some (x :: l2)
  | [], x, l2, _, hx => by
    rw [List.nil_append]
    simp only [lovTrimGo]
    rw [if_pos hx]
  | a :: as, x, l2, h1, hx => by
    have ha := h1 a (List.mem_cons_self a as)
    rw [List.cons_append]
    simp only [lovTrimGo]
    rw [if_neg (by simp [ha])]
    exact lovTrimGo_first_match km vm as x l2
      (fun z hz => h1 z (List.mem_cons_of_mem a hz)) hx

lemma lovMarkerTrim_inclusive (km vm : String) (l1 : List ObjectInfo) (x : ObjectInfo)
    (l2 : List ObjectInfo)
    (h1 : ∀ z ∈ l1, (strLe km z.name && strLe vm z.version) = false)
    (hx : (strLe km x.name && strLe vm x.version) = true) :
    lovMarkerTrim km vm (l1 ++ x :: l2) = x :: l2 := by
  unfold lovMarkerTrim
  rw [lovTrimGo_first_match km vm l1 x l2 h1 hx]
  rfl

/-- C7 (amended): cursor application per listing flavour.  V1 marker /
start-after trimming keeps exactly the objects whose name is strictly greater
than the marker (on the name-sorted listing).  The V2 continuation token
trims to exactly the elements after the (first) element carrying the token's
id, and to the empty sequence when no element carries it.  Version listing,
however, trims inclusively: it drops only elements before the first element
with name ≥ key-marker and version ≥ version-id-marker, keeps that element
itself, and leaves the whole sequence untouched when no element qualifies. -/
theorem cursor_trim_characterization (m id km vm : String) :
    (∀ l : List ObjectInfo, l.Pairwise (fun a b => strLt b.name a.name = false) →
      trimAfterObjectName m l = l.filter (fun o => strLt m o.name)) ∧
    (∀ (l1 : List ObjectInfo) (x : ObjectInfo) (l2 : List ObjectInfo),
      x.version = id → (∀ z ∈ l1, z.version ≠ id) → (∀ z ∈ l2, z.version ≠ id) →
      trimAfterObjectID id (l1 ++ x :: l2) = l2) ∧
    (∀ l : List ObjectInfo, (∀ z ∈ l, z.version ≠ id) → trimAfterObjectID id l = []) ∧
    (∀ (l1 : List ObjectInfo) (x : ObjectInfo) (l2 : List ObjectInfo),
      (∀ z ∈ l1, (strLe km z.name && strLe vm z.version) = false) →
      (strLe km x.name && strLe vm x.version) = true →
      lovMarkerTrim km vm (l1 ++ x :: l2) = x :: l2) ∧
    (∀ l : List ObjectInfo, (∀ o ∈ l, (strLe km o.name && strLe vm o.version) = false) →
      lovMarkerTrim km vm l = l) :=
  ⟨fun l hs => trimAfterObjectName_eq_filter m l hs,
   fun l1 x l2 hx h1 h2 => trimAfterObjectID_after_marker id l1 x l2 hx h1 h2,
   fun l h => trimAfterObjectID_marker_absent id l h,
   fun l1 x l2 h1 hx => lovMarkerTrim_inclusive km vm l1 x l2 h1 hx,
   fun l h => lovMarkerTrim_nomatch km vm l h⟩

/-- Witness for C7 at concrete cursors and listings. -/
theorem cursor_trim_characterization_witness :
    trimAfterObjectName "a" [sampleLa, sampleLb] =
        [sampleLa, sampleLb].filter (fun o => strLt "a" o.name) ∧
    trimAfterObjectID "va" [sampleLa, sampleLb] = [sampleLb] ∧
    trimAfterObjectID "zz" [sampleLa, sampleLb] = [] ∧
    lovMarkerTrim "b" "vb" [sampleLa, sampleLb] = [sampleLb] ∧
    lovMarkerTrim "z" "z" [sampleLa, sampleLb] = [sampleLa, sampleLb] :=
  ⟨(cursor_trim_characterization "a" "va" "b" "vb").1 [sampleLa, sampleLb] (by decide),
   (cursor_trim_characterization "a" "va" "b" "vb").2.1 [] sampleLa [sampleLb]
     (by decide) (by decide) (by decide),
   (cursor_trim_characterization "a" "zz" "b" "vb").2.2.1 [sampleLa, sampleLb] (by decide),
   (cursor_trim_characterization "a" "va" "b" "vb").2.2.2.1 [sampleLa] sampleLb []
     (by decide) (by decide),
   (cursor_trim_characterization "a" "va" "z" "z").2.2.2.2 [sampleLa, sampleLb] (by decide)⟩

/-!  Truncation lemmas. -/

lemma take_getLast?_of_lt {α : Type} (l : List α) (k : Nat) (hk : 0 < k) (h : k ≤ l.length) :
    (l.take k).getLast? = l[k-1]? := by
  rw [List.getLast?_eq_getElem?, List.length_take, Nat.min_eq_left h, List.getElem?_take,
    if_pos (by omega)]

lemma lovMarkerTrim_empty_markers (l : List ObjectInfo) : lovMarkerTrim "" "" l = l := by
  cases l with
  | nil => rfl
  | cons o rest =>
    unfold lovMarkerTrim
    simp only [lovTrimGo]
    rw [if_pos (by rw [strLe_empty_left, strLe_empty_left]; rfl)]
    rfl

/-- C8 (amended): when the untruncated sequence is longer than the max result
count `k ≥ 1`, each listing marks its result truncated; version listing
derives its next cursor (`NextKeyMarker`/`NextVersionIDMarker`) from the
first element past the truncation point (index `k`) and its
`KeyMarker`/`VersionIDMarker` from the last element shown (index `k-1`),
while flat V1 (`NextMarker`) and V2 (`NextContinuationToken`) derive their
next cursor from the last element shown (index `k-1`), not from the first
element past the cutoff. -/
theorem truncation_cursor_characterization (l1 l2 l3 : List ObjectInfo) (k : Nat)
    (hk : 0 < k) (h1 : k < l1.length) (h2 : k < l2.length) (h3 : k < l3.length)
    (h3d : ∀ o ∈ l3, o.isDir = false) :
    (∃ r lastShown, (ListObjectsV1 l1 "" (k : Int)).1 = some r ∧
      l1[k-1]? = some lastShown ∧ r.isTruncated = true ∧ r.nextMarker = lastShown.name) ∧
    (∃ r lastShown, (ListObjectsV2 l2 "" "" (k : Int)).1 = some r ∧
      l2[k-1]? = some lastShown ∧ r.isTruncated = true ∧
      r.nextContinuationToken = lastShown.version) ∧
    (∃ r nxt lastShown, listObjectVersionsCore l3 "" "" (k : Int) = some r ∧
      l3[k]? = some nxt ∧ l3[k-1]? = some lastShown ∧
      r.isTruncated = true ∧ r.nextKeyMarker = nxt.name ∧
      r.nextVersionIDMarker = nxt.version ∧
      r.keyMarker = lastShown.name ∧ r.versionIDMarker = lastShown.version) := by
  have hz : ¬((k : Int) = 0) := by
    rw [Int.natCast_eq_zero]
    omega
  refine ⟨?_, ?_, ?_⟩
  · have hk1 : k - 1 < l1.length := by omega
    have hne : l1 ≠ [] := List.ne_nil_of_length_pos (by omega)
    have hgl : (l1.take k).getLast? = some (l1.get ⟨k - 1, hk1⟩) := by
      rw [take_getLast?_of_lt l1 k hk (Nat.le_of_lt h1)]
      exact List.getElem?_eq_getElem hk1
    unfold ListObjectsV1
    rw [if_neg hz, if_neg hne, if_neg (show ¬("" ≠ "") from fun hc => hc rfl),
      if_pos (show ((l1.length : Int) > (k : Int)) from by exact_mod_cast h1),
      if_neg (show ¬((k : Int) < 0) from Int.not_lt.mpr (Int.natCast_nonneg k)),
      Int.toNat_natCast]
    dsimp only
    rw [hgl]
    exact ⟨_, _, rfl, List.getElem?_eq_getElem hk1, rfl, rfl⟩
  · have hk1 : k - 1 < l2.length := by omega
    have hne : l2 ≠ [] := List.ne_nil_of_length_pos (by omega)
    have hgl : (l2.take k).getLast? = some (l2.get ⟨k - 1, hk1⟩) := by
      rw [take_getLast?_of_lt l2 k hk (Nat.le_of_lt h2)]
      exact List.getElem?_eq_getElem hk1
    simp only [ListObjectsV2]
    rw [if_neg hz, if_neg hne]
    simp only [ne_eq, not_true_eq_false, if_false, ite_false]
    rw [if_pos (show ((l2.length : Int) > (k : Int)) from by exact_mod_cast h2),
      if_neg (show ¬((k : Int) < 0) from Int.not_lt.mpr (Int.natCast_nonneg k)),
      Int.toNat_natCast, hgl]
    exact ⟨_, _, rfl, List.getElem?_eq_getElem hk1, rfl, rfl⟩
  · have hk1 : k - 1 < l3.length := by omega
    have hfl : l3.filter (fun o => !o.isDir) = l3 :=
      List.filter_eq_self.mpr (fun o ho => by rw [h3d o ho]; rfl)
    unfold listObjectVersionsCore
    rw [lovMarkerTrim_empty_markers]
    dsimp only [triageObjects]
    rw [hfl]
    rw [if_pos (show ((l3.length : Int) > (k : Int)) from by exact_mod_cast h3),
      if_neg (show ¬((k : Int) < 1) from by exact_mod_cast Nat.not_lt.mpr hk),
      Int.toNat_natCast, List.getElem?_eq_getElem h3]
    dsimp only
    rw [List.getElem?_take, if_pos (by omega), List.getElem?_eq_getElem hk1]
    exact ⟨_, _, _, rfl, rfl, rfl, rfl, rfl, rfl, rfl, rfl⟩

/-- Witness for C8 at a three-key listing truncated to one result. -/
theorem truncation_cursor_characterization_witness :
    0 < 1 ∧ 1 < ([sampleLa, sampleLb, sampleLc] : List ObjectInfo).length ∧
    (∀ o ∈ ([sampleLa, sampleLb, sampleLc] : List ObjectInfo), o.isDir = false) ∧
    ((∃ r lastShown, (ListObjectsV1 [sampleLa, sampleLb, sampleLc] "" ((1 : Nat) : Int)).1 =
        some r ∧ [sampleLa, sampleLb, sampleLc][(1 : Nat) - 1]? = some lastShown ∧
        r.isTruncated = true ∧ r.nextMarker = lastShown.name) ∧
      (∃ r lastShown, (ListObjectsV2 [sampleLa, sampleLb, sampleLc] "" "" ((1 : Nat) : Int)).1 =
        some r ∧ [sampleLa, sampleLb, sampleLc][(1 : Nat) - 1]? = some lastShown ∧
        r.isTruncated = true ∧ r.nextContinuationToken = lastShown.version) ∧
      (∃ r nxt lastShown,
        listObjectVersionsCore [sampleLa, sampleLb, sampleLc] "" "" ((1 : Nat) : Int) = some r ∧
        [sampleLa, sampleLb, sampleLc][(1 : Nat)]? = some nxt ∧
        [sampleLa, sampleLb, sampleLc][(1 : Nat) - 1]? = some lastShown ∧
        r.isTruncated = true ∧ r.nextKeyMarker = nxt.name ∧
        r.nextVersionIDMarker = nxt.version ∧
        r.keyMarker = lastShown.name ∧ r.versionIDMarker = lastShown.version)) :=
  ⟨by decide, by decide, by decide,
    truncation_cursor_characterization [sampleLa, sampleLb, sampleLc]
      [sampleLa, sampleLb, sampleLc] [sampleLa, sampleLb, sampleLc] 1
      (by decide) (by decide) (by decide) (by decide) (by decide)⟩

/-!  Header-merge lemmas. -/

lemma joinComma_append (xs ys : List String) (hx : xs ≠ []) (hy : ys ≠ []) :
    joinComma (xs ++ ys) = joinComma xs ++ "," ++ joinComma ys := by
  induction xs with
  | nil => cases hx rfl
  | cons x xs ih =>
    cases xs with
    | nil =>
      cases ys with
      | nil => cases hy rfl
      | cons y ys2 => rfl
    | cons x2 xs2 =>
      have ih2 := ih (by simp)
      show joinComma (x :: (x2 :: xs2 ++ ys)) = _
      have hcons : x2 :: xs2 ++ ys = x2 :: (xs2 ++ ys) := rfl
      calc joinComma (x :: (x2 :: xs2 ++ ys))
          = x ++ "," ++ joinComma ((x2 :: xs2) ++ ys) := rfl
        _ = x ++ "," ++ (joinComma (x2 :: xs2) ++ "," ++ joinComma ys) := by rw [ih2]
        _ = (x ++ "," ++ joinComma (x2 :: xs2)) ++ "," ++ joinComma ys := by
            simp only [String.append_assoc]
        _ = joinComma (x :: x2 :: xs2) ++ "," ++ joinComma ys := rfl

lemma append_ne_empty_right (s t : String) (ht : t ≠ "") : s ++ t ≠ "" := by
  intro h
  apply ht
  have hd : (s ++ t).data = [] := by rw [h]
  rw [String.data_append] at hd
  exact String.ext (List.append_eq_nil.mp hd).2

/-- C2 (amended): for every non-empty prior VersionSet, with versioning
disabled the merge marks the write unversioned, propagates the prior
add-list when it is non-empty, returns exactly the prior unversioned
physical ids as deletion candidates, and writes as del-list the union of
the prior del-list and the prior unversioned ids only: when that union is
non-empty it overwrites any id named by an incoming delete-mark header, and
when it is empty the del header is left untouched, so the incoming id
survives exactly then.  The two disjunctive hypotheses only rule out
degenerate id strings whose comma-join is empty; they exclude no prior
VersionSet shape. -/
theorem updateCRDT_disabled_characterization (header : PutHeader) (versions : objectVersions)
    (hne : versions.objects ≠ [])
    (hdl : versions.delList = [] ∨ getDelHeader versions ≠ "")
    (hunv : unversioned versions = [] ∨
      joinComma ((unversioned versions).map (fun o => o.version)) ≠ "") :
    (updateCRDT2PSetHeaders header versions false).1.unversionedAttr = "true" ∧
    (updateCRDT2PSetHeaders header versions false).2 =
      (unversioned versions).map (fun o => o.version) ∧
    (versions.addList ≠ [] →
      (updateCRDT2PSetHeaders header versions false).1.addAttr = getAddHeader versions) ∧
    (versions.delList = [] → unversioned versions = [] →
      (updateCRDT2PSetHeaders header versions false).1.delAttr = header.delAttr) ∧
    (versions.delList ≠ [] ∨ unversioned versions ≠ [] →
      (updateCRDT2PSetHeaders header versions false).1.delAttr =
        joinComma (versions.delList ++ (unversioned versions).map (fun o => o.version))) := by
  have hemp : isEmpty versions = false := by
    unfold isEmpty
    exact List.isEmpty_eq_false.mpr hne
  have haddsel : versions.addList ≠ [] → (!isAddListEmpty versions) = true := by
    intro hadd
    unfold isAddListEmpty
    rw [List.isEmpty_eq_false.mpr hadd]
    rfl
  by_cases hU : unversioned versions = []
  · have hids0 : (unversioned versions).map (fun o => o.version) = [] := by rw [hU]; rfl
    by_cases hD : versions.delList = []
    · have hDs : getDelHeader versions = "" := by rw [getDelHeader, hD]; rfl
      have hr : updateCRDT2PSetHeaders header versions false =
          ({ unversionedAttr := "true"
             addAttr := if (!isAddListEmpty versions) = true then getAddHeader versions
               else header.addAttr
             delAttr := header.delAttr }, []) := by
        unfold updateCRDT2PSetHeaders
        simp only [Bool.not_false, if_true, hemp, Bool.false_eq_true, if_false]
        rw [hids0]
        simp only [joinComma]
        simp only [ne_eq, not_true_eq_false, if_false, ite_false]
        rw [hDs]
        simp only [ne_eq, not_true_eq_false, if_false, ite_false]
        split_ifs <;> rfl
      refine ⟨by rw [hr], by rw [hr, hids0], ?_, ?_, ?_⟩
      · intro hadd
        rw [hr]
        show (if (!isAddListEmpty versions) = true then getAddHeader versions
          else header.addAttr) = getAddHeader versions
        rw [if_pos (haddsel hadd)]
      · intro _ _
        rw [hr]
      · intro h5
        rcases h5 with h5 | h5
        · exact absurd hD h5
        · exact absurd hU h5
    · have hDs : getDelHeader versions ≠ "" := hdl.resolve_left hD
      have hr : updateCRDT2PSetHeaders header versions false =
          ({ unversionedAttr := "true"
             addAttr := if (!isAddListEmpty versions) = true then getAddHeader versions
               else header.addAttr
             delAttr := getDelHeader versions }, []) := by
        unfold updateCRDT2PSetHeaders
        simp only [Bool.not_false, if_true, hemp, Bool.false_eq_true, if_false]
        rw [hids0]
        simp only [joinComma]
        simp only [ne_eq, not_true_eq_false, if_false, ite_false]
        rw [if_pos hDs]
        split_ifs <;> rfl
      refine ⟨by rw [hr], by rw [hr, hids0], ?_, ?_, ?_⟩
      · intro hadd
        rw [hr]
        show (if (!isAddListEmpty versions) = true then getAddHeader versions
          else header.addAttr) = getAddHeader versions
        rw [if_pos (haddsel hadd)]
      · intro h4 _
        exact absurd h4 hD
      · intro _
        rw [hr, hids0, List.append_nil]
        rfl
  · have hA : joinComma ((unversioned versions).map (fun o => o.version)) ≠ "" :=
      hunv.resolve_left hU
    have hidsnil : (unversioned versions).map (fun o => o.version) ≠ [] := by
      rw [ne_eq, List.map_eq_nil_iff]
      exact hU
    have hdel : (if joinComma ((unversioned versions).map (fun o => o.version)) ≠ "" then
        (if getDelHeader versions ≠ "" then getDelHeader versions ++ "," else
          getDelHeader versions) ++ joinComma ((unversioned versions).map (fun o => o.version))
        else getDelHeader versions) =
        joinComma (versions.delList ++ (unversioned versions).map (fun o => o.version)) := by
      rw [if_pos hA]
      rcases hdl with hdl | hdl
      · have hgd : getDelHeader versions = "" := by rw [getDelHeader, hdl]; rfl
        rw [hgd, if_neg (fun hc => hc rfl), hdl, List.nil_append]
        rfl
      · have hdlne : versions.delList ≠ [] := by
          intro hc
          apply hdl
          rw [getDelHeader, hc]
          rfl
        rw [if_pos hdl, joinComma_append versions.delList _ hdlne hidsnil]
        rfl
    have hcomb : joinComma (versions.delList ++
        (unversioned versions).map (fun o => o.version)) ≠ "" := by
      rcases hdl with hdl | hdl
      · rw [hdl, List.nil_append]
        exact hA
      · have hdlne : versions.delList ≠ [] := by
          intro hc
          apply hdl
          rw [getDelHeader, hc]
          rfl
        rw [joinComma_append versions.delList _ hdlne hidsnil]
        exact append_ne_empty_right _ _ hA
    have hr : updateCRDT2PSetHeaders header versions false =
        ({ unversionedAttr := "true"
           addAttr := if (!isAddListEmpty versions) = true then getAddHeader versions
             else header.addAttr
           delAttr := joinComma (versions.delList ++
             (unversioned versions).map (fun o => o.version)) },
         (unversioned versions).map (fun o => o.version)) := by
      unfold updateCRDT2PSetHeaders
      simp only [Bool.not_false, if_true, hemp, Bool.false_eq_true, if_false]
      rw [hdel, if_pos hcomb]
      split_ifs <;> rfl
    refine ⟨by rw [hr], by rw [hr], ?_, ?_, ?_⟩
    · intro hadd
      rw [hr]
      show (if (!isAddListEmpty versions) = true then getAddHeader versions
        else header.addAttr) = getAddHeader versions
      rw [if_pos (haddsel hadd)]
    · intro _ h4
      exact absurd h4 hU
    · intro _
      rw [hr]

/-- Witness for C2 at a VersionSet with one prior tombstone and one prior
unversioned version. -/
theorem updateCRDT_disabled_characterization_witness :
    vsUnversionedDel.objects ≠ [] ∧
    (vsUnversionedDel.delList = [] ∨ getDelHeader vsUnversionedDel ≠ "") ∧
    (unversioned vsUnversionedDel = [] ∨
      joinComma ((unversioned vsUnversionedDel).map (fun o => o.version)) ≠ "") ∧
    ((updateCRDT2PSetHeaders sampleHdrX vsUnversionedDel false).1.unversionedAttr = "true" ∧
      (updateCRDT2PSetHeaders sampleHdrX vsUnversionedDel false).2 =
        (unversioned vsUnversionedDel).map (fun o => o.version) ∧
      (vsUnversionedDel.addList ≠ [] →
        (updateCRDT2PSetHeaders sampleHdrX vsUnversionedDel false).1.addAttr =
          getAddHeader vsUnversionedDel) ∧
      (vsUnversionedDel.delList = [] → unversioned vsUnversionedDel = [] →
        (updateCRDT2PSetHeaders sampleHdrX vsUnversionedDel false).1.delAttr =
          sampleHdrX.delAttr) ∧
      (vsUnversionedDel.delList ≠ [] ∨ unversioned vsUnversionedDel ≠ [] →
        (updateCRDT2PSetHeaders sampleHdrX vsUnversionedDel false).1.delAttr =
          joinComma (vsUnversionedDel.delList ++
            (unversioned vsUnversionedDel).map (fun o => o.version)))) :=
  ⟨by decide, by decide, by decide,
    updateCRDT_disabled_characterization sampleHdrX vsUnversionedDel
      (by decide) (by decide) (by decide)⟩

/-- C10: in the entry list `ListObjectVersions` builds (the `IsLatest`
flagging loop over the truncated, sorted object slice), an entry is flagged
`IsLatest` exactly when it is the last entry or the next entry carries a
different key name. -/
theorem isLatest_iff_last_of_name (l : List ObjectInfo) (i : Nat) (o : ObjectInfo)
    (ho : l[i]? = some o) :
    ∃ ov : ObjectVersionInfo, (markLatest l)[i]? = some ov ∧ ov.object = o ∧
      (ov.isLatest = true ↔
        (l[i+1]? = none ∨ ∃ o2, l[i+1]? = some o2 ∧ o2.name ≠ o.name)) := by
  induction l generalizing i with
  | nil => simp at ho
  | cons a rest ih =>
    cases rest with
    | nil =>
      cases i with
      | zero =>
        simp only [List.getElem?_cons_zero, Option.some.injEq] at ho
        subst ho
        rw [show markLatest [a] = [{ object := a, isLatest := true }] from rfl]
        refine ⟨{ object := a, isLatest := true }, by rw [List.getElem?_cons_zero], rfl, ?_⟩
        simp
      | succ n => simp at ho
    | cons b rest2 =>
      cases i with
      | zero =>
        simp only [List.getElem?_cons_zero, Option.some.injEq] at ho
        subst ho
        rw [show markLatest (a :: b :: rest2) =
          { object := a, isLatest := decide (b.name ≠ a.name) } :: markLatest (b :: rest2)
          from rfl]
        refine ⟨{ object := a, isLatest := decide (b.name ≠ a.name) },
          by rw [List.getElem?_cons_zero], rfl, ?_⟩
        constructor
        · intro h
          right
          exact ⟨b, by rw [List.getElem?_cons_succ, List.getElem?_cons_zero], by simpa using h⟩
        · rintro (h | ⟨o2, ho2, hne⟩)
          · simp at h
          · simp only [List.getElem?_cons_succ, List.getElem?_cons_zero,
              Option.some.injEq] at ho2
            subst ho2
            simpa using hne
      | succ n =>
        simp only [List.getElem?_cons_succ] at ho
        obtain ⟨ov, h1, h2, h3⟩ := ih n ho
        refine ⟨ov, ?_, h2, ?_⟩
        · show (markLatest (a :: b :: rest2))[n+1]? = some ov
          rw [show markLatest (a :: b :: rest2) =
            { object := a, isLatest := decide (b.name ≠ a.name) } :: markLatest (b :: rest2)
            from rfl]
          simpa using h1
        · simpa using h3

/-- Witness for C10 at a two-entry listing. -/
theorem isLatest_iff_last_of_name_witness :
    ([sampleLa, sampleLb] : List ObjectInfo)[0]? = some sampleLa ∧
    (∃ ov : ObjectVersionInfo, (markLatest [sampleLa, sampleLb])[0]? = some ov ∧
      ov.object = sampleLa ∧
      (ov.isLatest = true ↔
        (([sampleLa, sampleLb] : List ObjectInfo)[0+1]? = none ∨
          ∃ o2, ([sampleLa, sampleLb] : List ObjectInfo)[0+1]? = some o2 ∧
            o2.name ≠ sampleLa.name))) :=
  ⟨by decide, isLatest_iff_last_of_name [sampleLa, sampleLb] 0 sampleLa (by decide)⟩
